import Mathlib

/-!
Verification development for the places-scraper pipeline
(`serper_combined.py`): fetch → normalize → validate → deduplicate →
persist.  The Python source is shallowly embedded: strings are Lean
`String`s (sequences of Unicode code points, as in Python), dictionaries
are insertion-ordered association lists, the paginated HTTP interaction is
a list of per-page outcomes supplied by the environment, and the
completion-order stream of batches seen by the orchestrator is a list of batches.
-/

namespace Scraper

/-! ## Python string primitives -/

/-- Code points that Python `str.strip` (and `str.isspace`) treats as
whitespace. -/
def isPySpace (c : Char) : Bool :=
  ([0x09, 0x0A, 0x0B, 0x0C, 0x0D, 0x1C, 0x1D, 0x1E, 0x1F, 0x20, 0x85, 0xA0,
    0x1680, 0x2000, 0x2001, 0x2002, 0x2003, 0x2004, 0x2005, 0x2006, 0x2007,
    0x2008, 0x2009, 0x200A, 0x2028, 0x2029, 0x202F, 0x205F, 0x3000] : List Nat).contains c.toNat

/-- Remove trailing whitespace (the right half of `str.strip()`). -/
def dropTrailing (l : List Char) : List Char :=
  (l.reverse.dropWhile isPySpace).reverse

/-- Python `str.strip()` on a list of code points. -/
def pyStripList (l : List Char) : List Char :=
  dropTrailing (l.dropWhile isPySpace)

/-- Python `str.strip()`. -/
def pyStrip (s : String) : String :=
  ⟨pyStripList s.data⟩

/-- Python `str.replace(",", "")`: drop every comma. -/
def removeCommas (s : String) : String :=
  ⟨s.data.filter (fun c => !(c == ','))⟩

def isAsciiDigit (c : Char) : Bool :=
  0x30 ≤ c.toNat && c.toNat ≤ 0x39

/-- Tail of a valid Python integer-literal digit run: digits, with single
underscores allowed only between digits. -/
def digitsTail : List Char → Bool
  | [] => true
  | c :: rest =>
    if isAsciiDigit c then digitsTail rest
    else if c == '_' then
      match rest with
      | d :: rest2 => isAsciiDigit d && digitsTail rest2
      | [] => false
    else false

/-- Valid unsigned digit run for Python `int(str)`. -/
def digitsOk : List Char → Bool
  | [] => false
  | c :: rest => isAsciiDigit c && digitsTail rest

/-- Numeric value of a digit run (underscores skipped). -/
def digitsToNat (l : List Char) : Nat :=
  (l.filter (fun c => !(c == '_'))).foldl (fun a c => a * 10 + (c.toNat - 0x30)) 0

/-- Core of Python `int(str)` after whitespace stripping: optional sign,
then a digit run. -/
def pyIntCore (l : List Char) : Option Int :=
  match l with
  | '+' :: rest => if digitsOk rest then some (Int.ofNat (digitsToNat rest)) else none
  | '-' :: rest => if digitsOk rest then some (-(Int.ofNat (digitsToNat rest))) else none
  | _ => if digitsOk l then some (Int.ofNat (digitsToNat l)) else none

/-- Python `int(s)` for a text argument: `some n` on success, `none` when a
`ValueError` would be raised. -/
def pyInt? (s : String) : Option Int :=
  pyIntCore (pyStripList s.data)

/-! ## Text Normalizer (`normalize_text`) -/

/-- NFKD decomposition of one code point, modelling the Unicode data
consulted by `unicodedata.normalize` with the NFKD form, for the code points
exercised in this development; ASCII code points are NFKD-invariant, and
the accented letters used in the examples decompose into a base letter
plus a combining mark. -/
def nfkdChar (c : Char) : List Char :=
  if c = 'é' then ['e', '́']
  else if c = 'ã' then ['a', '̃']
  else if c = 'ç' then ['c', '̧']
  else [c]

/-- The encode-to-ASCII-with-ignore step: keep only code points below 128. -/
def asciiKeep (l : List Char) : List Char :=
  l.filter (fun c => decide (c.toNat < 128))

/-- `normalize_text` on a list of code points: NFKD-decompose, drop
non-ASCII code points, strip surrounding whitespace. -/
def normList (l : List Char) : List Char :=
  pyStripList (asciiKeep (l.flatMap nfkdChar))

/-- `normalize_text` on a text value. -/
def normalize_text (s : String) : String :=
  ⟨normList s.data⟩

/-- A Python value as it may reach `normalize_text`: text or a non-text
value (non-text values pass through unchanged). -/
inductive PyVal where
  | str (s : String)
  | int (n : Int)
  | bool (b : Bool)
  | null
deriving DecidableEq

/-- `normalize_text` on an arbitrary value: only `isinstance(text, str)`
inputs are normalized. -/
def normalizeVal : PyVal → PyVal
  | .str s => .str (normalize_text s)
  | v => v

/-! ## Insertion-ordered dictionaries (Python `dict` with text values)

Scalar JSON values reach the pipeline as text because the response body is
parsed with `parse_int=str, parse_float=str`. -/

/-- A record: an open, insertion-ordered mapping from field name to text. -/
abbrev Dict := List (String × String)

/-- `d[k]` lookup returning `none` for a missing key (Python `dict.get`). -/
def Dict.get? : Dict → String → Option String
  | [], _ => none
  | (k2, v) :: rest, k => if k2 = k then some v else Dict.get? rest k

/-- `dict.get(k, default)`. -/
def Dict.getD (d : Dict) (k : String) (dv : String) : String :=
  (Dict.get? d k).getD dv

/-- `d[k] = v`: update the existing slot in place, else append. -/
def Dict.set : Dict → String → String → Dict
  | [], k, v => [(k, v)]
  | (k2, v2) :: rest, k, v =>
    if k2 = k then (k, v) :: rest else (k2, v2) :: Dict.set rest k v

/-- `dict.keys()`, in insertion order. -/
def Dict.keys (d : Dict) : List String :=
  d.map (·.1)

/-- `k in d`. -/
def Dict.hasKey (d : Dict) (k : String) : Bool :=
  (Dict.get? d k).isSome

/-! ## Record Validator (`clean_rating_count`, `is_valid`) -/

def MIN_REVIEWS : Int := 10

/-- `clean_rating_count` on the text values occurring in records: strip
commas, parse with `int(...)`, and fall back to `0` on any failure. -/
def clean_rating_count (val : String) : Int :=
  (pyInt? (removeCommas val)).getD 0

/-- The parsed review count of a record; a missing `ratingCount` field
takes the Python default `0` (an `int`, so `clean_rating_count` returns
`int(0) = 0`). -/
def ratingOf (entry : Dict) : Int :=
  match Dict.get? entry "ratingCount" with
  | some v => clean_rating_count v
  | none => 0

/-- `is_valid`: non-empty trimmed `website` and at least `MIN_REVIEWS`
parsed reviews. -/
def is_valid (entry : Dict) : Bool :=
  !(pyStrip (Dict.getD entry "website" "") == "") && decide (MIN_REVIEWS ≤ ratingOf entry)

/-! ## Page Fetcher (`fetch_places`) -/

/-- One loaded input row (`query`, `city`, `zip` columns). -/
structure QueryRow where
  query : String
  city : String
  zip : String
deriving DecidableEq

/-- The search term built by `fetch_places`. -/
def searchTermOf (row : QueryRow) : String :=
  normalize_text row.query ++ " in " ++ normalize_text row.city ++ " " ++ pyStrip row.zip

/-- A response that `session.post` returned for one page: how many HTTP
attempts the retry adapter spent on it, its status code, and the decoded
`places` array (`none` when the body is malformed and `json.loads`
raises). -/
structure ApiResponse where
  attempts : Nat
  status : Nat
  places? : Option (List Dict)
deriving DecidableEq

/-- Outcome of one `session.post` call: either it raised (timeout,
transport error, exhausted retries — after `attempts` HTTP attempts), or
it returned a response. -/
inductive PostOutcome where
  | raised (attempts : Nat)
  | returned (r : ApiResponse)
deriving DecidableEq

def isReturned : PostOutcome → Bool
  | .returned _ => true
  | .raised _ => false

/-- The stamped entry built from one returned place: the fixed
query/city/zip/search_term/page stamp, then every field of the place,
normalized, written on top. -/
def mkEntry (row : QueryRow) (st : String) (page : Nat) (place : Dict) : Dict :=
  let base : Dict :=
    [("query", normalize_text row.query), ("city", normalize_text row.city),
     ("zip", pyStrip row.zip), ("search_term", st), ("page", toString page)]
  place.foldl (fun e kv => Dict.set e kv.1 (normalize_text kv.2)) base

/-- Result of one fetch task: the collected entries, the pages for which a
request was issued (in order), the increments of the run-wide API-call
counter, and the total HTTP attempts the adapter made. -/
structure FetchResult where
  collected : List Dict
  pagesRequested : List Nat
  apiCalls : Nat
  httpAttempts : Nat
deriving DecidableEq

/-- The pagination loop of `fetch_places`: one outcome per issued request.
A raised post, a non-2xx/3xx status (`raise_for_status`), a malformed body,
or an empty `places` array each end the loop; a non-empty page is stamped,
collected, and the page cursor advances by one. -/
def fetchGo (row : QueryRow) (st : String) :
    List PostOutcome → Nat → List Dict → List Nat → Nat → Nat → FetchResult
  | [], _, col, pr, calls, att => ⟨col, pr, calls, att⟩
  | o :: rest, page, col, pr, calls, att =>
    match o with
    | .raised a => ⟨col, pr ++ [page], calls, att + a⟩
    | .returned r =>
      if 400 ≤ r.status then ⟨col, pr ++ [page], calls + 1, att + r.attempts⟩
      else
        match r.places? with
        | none => ⟨col, pr ++ [page], calls + 1, att + r.attempts⟩
        | some [] => ⟨col, pr ++ [page], calls + 1, att + r.attempts⟩
        | some ps =>
          fetchGo row st rest (page + 1) (col ++ ps.map (mkEntry row st page))
            (pr ++ [page]) (calls + 1) (att + r.attempts)

/-- `fetch_places` for one row, driven by the per-page post outcomes
supplied by the environment; starts at page 1 with nothing collected. -/
def fetch_places (row : QueryRow) (outcomes : List PostOutcome) : FetchResult :=
  fetchGo row (searchTermOf row) outcomes 1 [] [] 0 0

/-- A response representing a successfully fetched, non-empty page. -/
def okNonEmpty (r : ApiResponse) : Bool :=
  decide (r.status < 400) &&
    (match r.places? with
     | some (_ :: _) => true
     | _ => false)

/-- A post outcome the `except` clause of `fetch_places` treats as a page
failure: the post raised, the status was non-success, or the body was
malformed. -/
def failedOutcome : PostOutcome → Bool
  | .raised _ => true
  | .returned r => decide (400 ≤ r.status) || r.places?.isNone

/-- The records of a run of successfully fetched pages, stamped and
concatenated in page order starting at `page`. -/
def expectedEntries (row : QueryRow) (st : String) : Nat → List ApiResponse → List Dict
  | _, [] => []
  | page, r :: rest =>
    (r.places?.getD []).map (mkEntry row st page) ++ expectedEntries row st (page + 1) rest

/-! ## Deduplicator and Incremental Writer (`run_serper` batch loop) -/

/-- The apostrophe code point used to protect `cid` cells. -/
def quoteChar : Char := Char.ofNat 39

/-- The leading-quote-protected text token written to the `cid` column. -/
def quoteToken (s : String) : String :=
  ⟨quoteChar :: s.data⟩

/-- The fixed URL template, parameterized by the raw `cid`. -/
def mapsUrl (c : String) : String :=
  "https://www.google.com/maps?cid=" ++ c

/-- Enrichment of a kept record (in source order): `is_valid` tag, then
`maps_url` from the raw `cid`, then the `cid` slot rewritten to the
protected token. -/
def acceptPlace (cid : String) (place : Dict) : Dict :=
  Dict.set (Dict.set (Dict.set place "is_valid" (if is_valid place then "TRUE" else "FALSE"))
    "maps_url" (mapsUrl cid)) "cid" (quoteToken cid)

/-- The per-batch dedup loop: keep a record exactly when its `cid` is
non-empty and unseen, marking the raw `cid` seen; returns the grown seen
set and the kept (enriched) records in order. -/
def dedupGo (seen : List String) : List Dict → List String × List Dict
  | [] => (seen, [])
  | place :: rest =>
    match Dict.get? place "cid" with
    | some cid =>
      if cid ≠ "" ∧ cid ∉ seen then
        let out := dedupGo (cid :: seen) rest
        (out.1, acceptPlace cid place :: out.2)
      else dedupGo seen rest
    | none => dedupGo seen rest

/-- The initial `all_keys` set of `run_serper`, as a duplicate-free list. -/
def initKeys : List String :=
  ["query", "city", "zip", "search_term", "page", "cid", "is_valid", "maps_url"]

/-- Add one key to a duplicate-free key list (`set.add`). -/
def keysInsert (ks : List String) (k : String) : List String :=
  if k ∈ ks then ks else ks ++ [k]

/-- `all_keys.update(...)`. -/
def keysUnion (ks : List String) (new : List String) : List String :=
  new.foldl keysInsert ks

/-- Python text comparison on code-point lists: lexicographic by code
point. -/
def charListLe : List Char → List Char → Bool
  | [], _ => true
  | _ :: _, [] => false
  | a :: as, b :: bs =>
    if a.toNat < b.toNat then true
    else if b.toNat < a.toNat then false
    else charListLe as bs

/-- Python `<=` on text. -/
def strLe (a b : String) : Bool :=
  charListLe a.data b.data

/-- The ordering relation used by `sorted(...)`. -/
def strLeP (a b : String) : Prop :=
  strLe a b = true

instance : DecidableRel strLeP :=
  fun a b => inferInstanceAs (Decidable (strLe a b = true))

/-- Python `sorted` on a list of field names. -/
def sortStrings (l : List String) : List String :=
  List.insertionSort strLeP l

/-- The fixed prefix of the output schema. -/
def fixedCols : List String :=
  ["query", "city", "zip", "search_term", "page", "is_valid", "maps_url"]

/-- The header row: the fixed prefix, then the remaining observed keys in
sorted order. -/
def mkHeaders (ks : List String) : List String :=
  fixedCols ++ sortStrings (ks.filter (fun k => !(decide (k ∈ fixedCols))))

/-- The writer-side state shared across completing fetch tasks. -/
structure WriterState where
  seen : List String
  allKeys : List String
  headers? : Option (List String)
  outRecords : List Dict

/-- Handling of one completed batch: dedup and enrich, grow `all_keys`
with the keys of the kept records, freeze the header on the first non-empty
batch, and append the kept records to the output. -/
def processBatch (st : WriterState) (places : List Dict) : WriterState :=
  let sr := dedupGo st.seen places
  let ks := keysUnion st.allKeys (sr.2.flatMap Dict.keys)
  ⟨sr.1, ks,
   if sr.2.isEmpty then st.headers? else some ((st.headers?).getD (mkHeaders ks)),
   st.outRecords ++ sr.2⟩

/-- The writer state at the start of a run (`seen_cids` reset, `all_keys`
initial, no header written, nothing emitted). -/
def initState : WriterState :=
  ⟨[], initKeys, none, []⟩

/-- The dedup-and-write phase of the whole run, over the completion-order
stream of batches. -/
def runBatches (batches : List (List Dict)) : WriterState :=
  batches.foldl processBatch initState

/-- `csv.DictWriter` serialization of one record against the frozen
header: missing columns become blank cells (`restval`), fields outside the
header are ignored (the extrasaction ignore mode). -/
def rowCells (headers : List String) (place : Dict) : List String :=
  headers.map (fun h => Dict.getD place h "")

/-- The raw `cid` of a record when present and non-empty (the dedup key). -/
def neCid? (p : Dict) : Option String :=
  match Dict.get? p "cid" with
  | some c => if c = "" then none else some c
  | none => none

/-- The stream of non-empty raw `cid`s of a list of records. -/
def neCids (places : List Dict) : List String :=
  places.filterMap neCid?

/-- The written `cid` cell of a record. -/
def cidOf (r : Dict) : Option String :=
  Dict.get? r "cid"

/-- First-occurrence deduplication of a stream of identifiers against an
already-seen set: the specification of first-write-wins. -/
def firstDedupFrom (seen : List String) : List String → List String
  | [] => []
  | c :: cs =>
    if c ∈ seen then firstDedupFrom seen cs
    else c :: firstDedupFrom (c :: seen) cs

/-- The seen set after a stream of identifiers has been processed. -/
def seenAfter (seen : List String) : List String → List String
  | [] => seen
  | c :: cs =>
    if c ∈ seen then seenAfter seen cs
    else seenAfter (c :: seen) cs

/-! ## Dictionary lemmas -/

theorem Dict.get?_set_self (d : Dict) (k v : String) :
    Dict.get? (Dict.set d k v) k = some v := by
  induction d with
  | nil => simp [Dict.set, Dict.get?]
  | cons hd tl ih =>
    obtain ⟨k2, v2⟩ := hd
    by_cases h : k2 = k
    · simp [Dict.set, Dict.get?, h]
    · simp [Dict.set, Dict.get?, h, ih]

theorem Dict.get?_set_ne (d : Dict) (k v k2 : String) (h : k2 ≠ k) :
    Dict.get? (Dict.set d k v) k2 = Dict.get? d k2 := by
  have hne : ¬k = k2 := fun h2 => h h2.symm
  induction d with
  | nil => simp [Dict.set, Dict.get?, hne]
  | cons hd tl ih =>
    obtain ⟨k3, v3⟩ := hd
    by_cases h3 : k3 = k
    · subst h3
      simp [Dict.set, Dict.get?, hne]
    · simp [Dict.set, Dict.get?, h3, ih]

theorem Dict.hasKey_set_self (d : Dict) (k v : String) :
    Dict.hasKey (Dict.set d k v) k = true := by
  simp [Dict.hasKey, Dict.get?_set_self]

theorem Dict.hasKey_set_mono (d : Dict) (k v k2 : String)
    (h : Dict.hasKey d k2 = true) : Dict.hasKey (Dict.set d k v) k2 = true := by
  by_cases hk : k2 = k
  · subst hk
    exact Dict.hasKey_set_self d k2 v
  · simpa [Dict.hasKey, Dict.get?_set_ne d k v k2 hk] using h

theorem Dict.mem_keys_of_get? (d : Dict) (k v : String)
    (h : Dict.get? d k = some v) : k ∈ Dict.keys d := by
  induction d with
  | nil => simp [Dict.get?] at h
  | cons hd tl ih =>
    obtain ⟨k2, v2⟩ := hd
    by_cases h2 : k2 = k
    · simp [Dict.keys, h2]
    · simp only [Dict.get?, if_neg h2] at h
      simp [Dict.keys] at ih ⊢
      exact Or.inr (ih h)

/-! ## Stripping lemmas -/

theorem dropWhile_self (p : Char → Bool) (l : List Char) :
    List.dropWhile p (List.dropWhile p l) = List.dropWhile p l := by
  induction l with
  | nil => rfl
  | cons c t ih =>
    by_cases h : p c
    · simpa [List.dropWhile_cons, h] using ih
    · simp [List.dropWhile_cons, h]

theorem dropWhile_head_false (p : Char → Bool) (l : List Char) (c : Char)
    (t : List Char) (h : List.dropWhile p l = c :: t) : p c = false := by
  induction l with
  | nil => simp [List.dropWhile] at h
  | cons a l2 ih =>
    by_cases ha : p a
    · exact ih (by simpa [List.dropWhile_cons, ha] using h)
    · rw [List.dropWhile_cons, if_neg (by simpa using ha)] at h
      cases h
      simpa using ha

theorem dropTrailing_sublist (l : List Char) : (dropTrailing l).Sublist l := by
  have h := (List.dropWhile_sublist (l := l.reverse) isPySpace).reverse
  simpa [dropTrailing] using h

theorem pyStripList_sublist (l : List Char) : (pyStripList l).Sublist l :=
  (dropTrailing_sublist _).trans (List.dropWhile_sublist _)

theorem pyStripList_idem (l : List Char) :
    pyStripList (pyStripList l) = pyStripList l := by
  set y := List.dropWhile isPySpace l with hy
  have hz : pyStripList l = dropTrailing y := rfl
  have hzrev : (dropTrailing y).reverse = List.dropWhile isPySpace y.reverse := by
    simp [dropTrailing]
  have hfront : List.dropWhile isPySpace (dropTrailing y) = dropTrailing y := by
    cases hc : dropTrailing y with
    | nil => simp
    | cons c t =>
      have hpref : dropTrailing y <+: y := by
        rw [← List.reverse_suffix]
        rw [hzrev]
        exact List.dropWhile_suffix _
      obtain ⟨r, hr⟩ := hpref
      rw [hc] at hr
      have hcfalse : isPySpace c = false := by
        apply dropWhile_head_false isPySpace l c (t ++ r)
        rw [← hy, ← hr]
        simp
      rw [List.dropWhile_cons, if_neg (by simp [hcfalse])]
  have htrail : dropTrailing (dropTrailing y) = dropTrailing y := by
    have h2 : (dropTrailing y).reverse.dropWhile isPySpace = (dropTrailing y).reverse := by
      rw [hzrev]
      exact dropWhile_self _ _
    show ((dropTrailing y).reverse.dropWhile isPySpace).reverse = dropTrailing y
    rw [h2, List.reverse_reverse]
  rw [hz]
  show dropTrailing (List.dropWhile isPySpace (dropTrailing y)) = dropTrailing y
  rw [hfront, htrail]

theorem pyStrip_idem (s : String) : pyStrip (pyStrip s) = pyStrip s := by
  simp [pyStrip, pyStripList_idem]

/-! ## Normalization lemmas -/

theorem nfkdChar_ascii (c : Char) (h : c.toNat < 128) : nfkdChar c = [c] := by
  have h1 : c ≠ 'é' := by
    intro he
    subst he
    exact absurd h (by decide)
  have h2 : c ≠ 'ã' := by
    intro he
    subst he
    exact absurd h (by decide)
  have h3 : c ≠ 'ç' := by
    intro he
    subst he
    exact absurd h (by decide)
  simp [nfkdChar, h1, h2, h3]

theorem flatMap_nfkd_ascii (l : List Char) (h : ∀ c ∈ l, c.toNat < 128) :
    l.flatMap nfkdChar = l := by
  induction l with
  | nil => rfl
  | cons c t ih =>
    rw [List.flatMap_cons, nfkdChar_ascii c (h c (by simp)),
      ih (fun c2 hc2 => h c2 (by simp [hc2]))]
    rfl

theorem mem_normList_ascii (l : List Char) (c : Char) (h : c ∈ normList l) :
    c.toNat < 128 := by
  have hmem : c ∈ asciiKeep (l.flatMap nfkdChar) :=
    (pyStripList_sublist _).subset h
  have := List.of_mem_filter hmem
  simpa using this

theorem normList_fix (l : List Char) : normList (normList l) = normList l := by
  have hascii : ∀ c ∈ normList l, c.toNat < 128 := mem_normList_ascii l
  show pyStripList (asciiKeep ((normList l).flatMap nfkdChar)) = normList l
  rw [flatMap_nfkd_ascii _ hascii]
  have hkeep : asciiKeep (normList l) = normList l := by
    rw [asciiKeep, List.filter_eq_self]
    intro c hc
    simpa using hascii c hc
  rw [hkeep]
  show pyStripList (pyStripList (asciiKeep (l.flatMap nfkdChar)))
      = pyStripList (asciiKeep (l.flatMap nfkdChar))
  exact pyStripList_idem _

/-! ## Claim theorems: validator and normalizer -/

/-- Claim C2: a record is valid if and only if its `website` field is
non-empty after trimming and its `ratingCount` field, parsed as an integer
after removing commas (parse failure giving `0`, missing field giving
`0`), is at least 10; with the five concrete threshold examples of the
specification. -/
theorem C2_validator_decision :
    (∀ e : Dict, is_valid e = true ↔
      (pyStrip (Dict.getD e "website" "") ≠ "" ∧ (10 : Int) ≤ ratingOf e)) ∧
    is_valid [("website", "x"), ("ratingCount", "15")] = true ∧
    is_valid [("website", "x"), ("ratingCount", "9")] = false ∧
    clean_rating_count "1,234" = 1234 ∧
    is_valid [("website", "x"), ("ratingCount", "1,234")] = true ∧
    clean_rating_count "abc" = 0 ∧
    is_valid [("website", "x"), ("ratingCount", "abc")] = false ∧
    is_valid [("website", ""), ("ratingCount", "15")] = false := by
  refine ⟨fun e => ?_, by decide, by decide, by decide, by decide, by decide,
    by decide, by decide⟩
  simp [is_valid, MIN_REVIEWS, Bool.and_eq_true, decide_eq_true_iff]

/-- Claim C6: the Text Normalizer NFKD-decomposes its text input, keeps
only ASCII code points, and trims surrounding whitespace, so its output is
ASCII-only and strip-stable; `"Café São Paulo"` normalizes to
`"Cafe Sao Paulo"`; non-text values pass through unchanged. -/
theorem C6_normalizer_output :
    (∀ s : String, (∀ c ∈ (normalize_text s).data, c.toNat < 128) ∧
      pyStrip (normalize_text s) = normalize_text s) ∧
    normalize_text "Café São Paulo" = "Cafe Sao Paulo" ∧
    (∀ n : Int, normalizeVal (PyVal.int n) = PyVal.int n) ∧
    (∀ b : Bool, normalizeVal (PyVal.bool b) = PyVal.bool b) ∧
    normalizeVal PyVal.null = PyVal.null := by
  refine ⟨fun s => ⟨fun c hc => ?_, ?_⟩, by decide, fun n => rfl, fun b => rfl, rfl⟩
  · exact mem_normList_ascii s.data c hc
  · show pyStrip ⟨normList s.data⟩ = ⟨normList s.data⟩
    simp only [pyStrip, normList, pyStripList_idem]

/-- Claim C10: the Text Normalizer is idempotent on text: normalizing an
already-normalized string returns it unchanged. -/
theorem C10_normalizer_idem (s : String) :
    normalize_text (normalize_text s) = normalize_text s := by
  show (⟨normList (normList s.data)⟩ : String) = ⟨normList s.data⟩
  rw [normList_fix]

/-! ## Page Fetcher lemmas -/

theorem fetchGo_front (row : QueryRow) (st : String) (front : List ApiResponse)
    (h : ∀ r ∈ front, okNonEmpty r = true) :
    ∀ (rest : List PostOutcome) (page : Nat) (col : List Dict) (pr : List Nat)
      (calls att : Nat),
    fetchGo row st (front.map PostOutcome.returned ++ rest) page col pr calls att
      = fetchGo row st rest (page + front.length)
          (col ++ expectedEntries row st page front)
          (pr ++ List.range' page front.length)
          (calls + front.length)
          (att + (front.map ApiResponse.attempts).sum) := by
  induction front with
  | nil => intro rest page col pr calls att; simp [expectedEntries]
  | cons r front ih =>
    intro rest page col pr calls att
    have hr := h r (by simp)
    have hst : ¬400 ≤ r.status := by
      simp [okNonEmpty] at hr
      omega
    obtain ⟨q, qs, hp⟩ : ∃ q qs, r.places? = some (q :: qs) := by
      rcases h2 : r.places? with _ | ps
      · simp [okNonEmpty, h2] at hr
      · cases ps with
        | nil => simp [okNonEmpty, h2] at hr
        | cons q qs => exact ⟨q, qs, rfl⟩
    simp only [List.map_cons, List.cons_append, fetchGo, hp, List.append_eq]
    rw [if_neg hst]
    rw [ih (fun r2 hr2 => h r2 (by simp [hr2])) rest (page + 1) _ _ _ _]
    simp only [expectedEntries, hp, Option.getD_some, List.range'_succ, List.map_cons,
      List.sum_cons, List.length_cons]
    simp [List.append_assoc, Nat.add_assoc, Nat.add_comm, Nat.add_left_comm]

/-- Claim C3: when the first `n` pages are non-empty and page `n+1` is
empty, the fetcher issues exactly `n+1` requests for pages `1, 2, …, n+1`
and returns the records of those pages concatenated in page order. -/
theorem C3_pagination_termination (row : QueryRow) (front : List ApiResponse)
    (e : ApiResponse) (rest : List PostOutcome)
    (hf : ∀ r ∈ front, okNonEmpty r = true)
    (he : e.status < 400) (hp : e.places? = some []) :
    (fetch_places row (front.map PostOutcome.returned
        ++ PostOutcome.returned e :: rest)).pagesRequested
      = List.range' 1 (front.length + 1) ∧
    (fetch_places row (front.map PostOutcome.returned
        ++ PostOutcome.returned e :: rest)).collected
      = expectedEntries row (searchTermOf row) 1 front := by
  unfold fetch_places
  rw [fetchGo_front row (searchTermOf row) front hf (PostOutcome.returned e :: rest)
    1 [] [] 0 0]
  simp only [fetchGo, hp]
  rw [if_neg (by omega)]
  refine ⟨?_, by simp⟩
  simp [List.range'_concat, Nat.add_comm]

/-- Claim C4: a failed request at page `p` (raised post, non-success
status, or malformed body) after `p-1` successful non-empty pages stops
pagination for this row only: the records of pages `1..p-1` are still
returned normally. -/
theorem C4_failure_isolation (row : QueryRow) (front : List ApiResponse)
    (o : PostOutcome) (rest : List PostOutcome)
    (hf : ∀ r ∈ front, okNonEmpty r = true) (ho : failedOutcome o = true) :
    (fetch_places row (front.map PostOutcome.returned ++ o :: rest)).collected
      = expectedEntries row (searchTermOf row) 1 front ∧
    (fetch_places row (front.map PostOutcome.returned ++ o :: rest)).pagesRequested
      = List.range' 1 (front.length + 1) := by
  unfold fetch_places
  rw [fetchGo_front row (searchTermOf row) front hf (o :: rest) 1 [] [] 0 0]
  cases o with
  | raised a => simp [fetchGo, List.range'_concat, Nat.add_comm]
  | returned r =>
    by_cases hst : 400 ≤ r.status
    · simp [fetchGo, if_pos hst, List.range'_concat, Nat.add_comm]
    · have hnone : r.places? = none := by
        simpa [failedOutcome, hst] using ho
      simp [fetchGo, if_neg hst, hnone, List.range'_concat, Nat.add_comm]

theorem fetchGo_pr_shape (row : QueryRow) (st : String) :
    ∀ (outcomes : List PostOutcome) (page : Nat) (col : List Dict) (pr : List Nat)
      (calls att : Nat),
    ∃ t, (fetchGo row st outcomes page col pr calls att).pagesRequested = pr ++ t := by
  intro outcomes
  induction outcomes with
  | nil => exact fun page col pr calls att => ⟨[], by simp [fetchGo]⟩
  | cons o rest ih =>
    intro page col pr calls att
    cases o with
    | raised a => exact ⟨[page], rfl⟩
    | returned r =>
      by_cases hst : 400 ≤ r.status
      · exact ⟨[page], by simp [fetchGo, if_pos hst]⟩
      · rcases hp : r.places? with _ | ps
        · exact ⟨[page], by simp [fetchGo, if_neg hst, hp]⟩
        · cases ps with
          | nil => exact ⟨[page], by simp [fetchGo, if_neg hst, hp]⟩
          | cons q qs =>
            obtain ⟨t, ht⟩ := ih (page + 1) (col ++ (q :: qs).map (mkEntry row st page))
              (pr ++ [page]) (calls + 1) (att + r.attempts)
            refine ⟨page :: t, ?_⟩
            simp only [fetchGo, hp]
            rw [if_neg hst, ht]
            simp

theorem fetchGo_calls_count (row : QueryRow) (st : String) :
    ∀ (outcomes : List PostOutcome) (page : Nat) (col : List Dict) (pr : List Nat)
      (calls att : Nat),
    (fetchGo row st outcomes page col pr calls att).apiCalls
      = calls + (outcomes.take
          ((fetchGo row st outcomes page col pr calls att).pagesRequested.length
            - pr.length)).countP isReturned := by
  intro outcomes
  induction outcomes with
  | nil => intro page col pr calls att; simp [fetchGo]
  | cons o rest ih =>
    intro page col pr calls att
    cases o with
    | raised a => simp [fetchGo, isReturned, List.countP_cons]
    | returned r =>
      by_cases hst : 400 ≤ r.status
      · simp [fetchGo, if_pos hst, isReturned, List.countP_cons]
      · rcases hp : r.places? with _ | ps
        · simp [fetchGo, if_neg hst, hp, isReturned, List.countP_cons]
        · cases ps with
          | nil => simp [fetchGo, if_neg hst, hp, isReturned, List.countP_cons]
          | cons q qs =>
            obtain ⟨t, ht⟩ := fetchGo_pr_shape row st rest (page + 1)
              (col ++ (q :: qs).map (mkEntry row st page)) (pr ++ [page]) (calls + 1)
              (att + r.attempts)
            have hih := ih (page + 1) (col ++ (q :: qs).map (mkEntry row st page))
              (pr ++ [page]) (calls + 1) (att + r.attempts)
            simp only [fetchGo, hp]
            rw [if_neg hst]
            rw [hih, ht]
            have hlen : (pr ++ [page] ++ t).length - pr.length = t.length + 1 := by
              simp
            have hlen2 : (pr ++ [page] ++ t).length - (pr ++ [page]).length = t.length := by
              simp
              omega
            rw [hlen, hlen2, List.take_succ_cons, List.countP_cons]
            simp [isReturned, Nat.add_assoc, Nat.add_comm, Nat.add_left_comm]

/-- Claim C7, amended: the run-wide API-call counter grows by exactly one
per `post` call that returned a response (of any status), and not at all
for a `post` call that raised; the HTTP attempts the retry adapter spends
inside one `post` call are not counted individually. -/
theorem C7_counter_per_returned_post (row : QueryRow) (os : List PostOutcome) :
    (fetch_places row os).apiCalls
      = (os.take (fetch_places row os).pagesRequested.length).countP isReturned := by
  have h := fetchGo_calls_count row (searchTermOf row) os 1 [] [] 0 0
  simpa [fetch_places] using h

/-! ## Concrete scrutiny scenarios -/

def rowW : QueryRow := ⟨"plumber", "Boston", "02101"⟩

def plW1 : Dict := [("cid", "5"), ("website", "x"), ("ratingCount", "15")]

def plW2 : Dict := [("cid", "6"), ("website", "y"), ("ratingCount", "3")]

def frontW : List ApiResponse := [⟨1, 200, some [plW1]⟩, ⟨1, 200, some [plW2]⟩]

def frontW1 : List ApiResponse := [⟨1, 200, some [plW1]⟩]

def emptyW : ApiResponse := ⟨1, 200, some []⟩

/-- Witness for C3 at the specification stub (non-empty, non-empty, empty):
three requests for pages 1, 2, 3 and the records of both pages in order. -/
theorem C3_pagination_termination_witness :
    (fetch_places rowW (frontW.map PostOutcome.returned
        ++ PostOutcome.returned emptyW :: [])).pagesRequested
      = List.range' 1 (frontW.length + 1) ∧
    (fetch_places rowW (frontW.map PostOutcome.returned
        ++ PostOutcome.returned emptyW :: [])).collected
      = expectedEntries rowW (searchTermOf rowW) 1 frontW :=
  C3_pagination_termination rowW frontW emptyW [] (by decide) (by decide) (by decide)

/-- Witness for C4: page 2 raising after a successful page 1 still returns
the records of page 1. -/
theorem C4_failure_isolation_witness :
    (fetch_places rowW (frontW1.map PostOutcome.returned
        ++ PostOutcome.raised 1 :: [])).collected
      = expectedEntries rowW (searchTermOf rowW) 1 frontW1 ∧
    (fetch_places rowW (frontW1.map PostOutcome.returned
        ++ PostOutcome.raised 1 :: [])).pagesRequested
      = List.range' 1 (frontW1.length + 1) :=
  C4_failure_isolation rowW frontW1 (PostOutcome.raised 1) [] (by decide) (by decide)

/-- Counterexample to C7 as stated: a single `post` call whose retry
adapter made 2 HTTP attempts increments the counter once, not twice, and a
raised `post` call increments it zero times. -/
theorem C7_attempts_counterexample :
    (fetch_places rowW [PostOutcome.returned ⟨2, 200, some []⟩]).apiCalls = 1 ∧
    (fetch_places rowW [PostOutcome.returned ⟨2, 200, some []⟩]).httpAttempts = 2 ∧
    ¬((fetch_places rowW [PostOutcome.returned ⟨2, 200, some []⟩]).apiCalls
        = (fetch_places rowW [PostOutcome.returned ⟨2, 200, some []⟩]).httpAttempts) ∧
    (fetch_places rowW [PostOutcome.raised 1]).apiCalls = 0 ∧
    (fetch_places rowW [PostOutcome.raised 1]).httpAttempts = 1 := by
  refine ⟨?_, ?_, ?_, ?_, ?_⟩ <;> decide

/-! ## Deduplicator lemmas -/

theorem cidOf_acceptPlace (c : String) (p : Dict) :
    cidOf (acceptPlace c p) = some (quoteToken c) := by
  simp [cidOf, acceptPlace, Dict.get?_set_self]

theorem dedupGo_seen (places : List Dict) : ∀ seen,
    (dedupGo seen places).1 = seenAfter seen (neCids places) := by
  induction places with
  | nil => intro seen; rfl
  | cons place rest ih =>
    intro seen
    rcases hg : Dict.get? place "cid" with _ | c
    · simp only [dedupGo, hg]
      rw [ih]
      simp [neCids, List.filterMap_cons, neCid?, hg]
    · by_cases hc : c = ""
      · simp only [dedupGo, hg, if_neg (fun h2 : c ≠ "" ∧ c ∉ seen => h2.1 hc)]
        rw [ih]
        simp [neCids, List.filterMap_cons, neCid?, hg, hc]
      · by_cases hs : c ∈ seen
        · simp only [dedupGo, hg, if_neg (fun h2 : c ≠ "" ∧ c ∉ seen => h2.2 hs)]
          rw [ih]
          simp [neCids, List.filterMap_cons, neCid?, hg, hc, seenAfter, hs]
        · simp only [dedupGo, hg, if_pos (And.intro hc hs)]
          rw [ih]
          simp [neCids, List.filterMap_cons, neCid?, hg, hc, seenAfter, hs]

theorem dedupGo_cids (places : List Dict) : ∀ seen,
    (dedupGo seen places).2.map cidOf
      = (firstDedupFrom seen (neCids places)).map (fun c => some (quoteToken c)) := by
  induction places with
  | nil => intro seen; rfl
  | cons place rest ih =>
    intro seen
    rcases hg : Dict.get? place "cid" with _ | c
    · simp only [dedupGo, hg]
      rw [ih]
      simp [neCids, List.filterMap_cons, neCid?, hg]
    · by_cases hc : c = ""
      · simp only [dedupGo, hg, if_neg (fun h2 : c ≠ "" ∧ c ∉ seen => h2.1 hc)]
        rw [ih]
        simp [neCids, List.filterMap_cons, neCid?, hg, hc]
      · by_cases hs : c ∈ seen
        · simp only [dedupGo, hg, if_neg (fun h2 : c ≠ "" ∧ c ∉ seen => h2.2 hs)]
          rw [ih]
          simp [neCids, List.filterMap_cons, neCid?, hg, hc, firstDedupFrom, hs]
        · simp only [dedupGo, hg, if_pos (And.intro hc hs)]
          simp only [List.map_cons, cidOf_acceptPlace]
          rw [ih (c :: seen)]
          simp [neCids, List.filterMap_cons, neCid?, hg, hc, firstDedupFrom, hs]

theorem dedupGo_mem (places : List Dict) : ∀ seen r, r ∈ (dedupGo seen places).2 →
    ∃ p, p ∈ places ∧ ∃ c, Dict.get? p "cid" = some c ∧ c ≠ "" ∧ r = acceptPlace c p := by
  induction places with
  | nil => intro seen r h; simp [dedupGo] at h
  | cons place rest ih =>
    intro seen r h
    rcases hg : Dict.get? place "cid" with _ | c
    · simp only [dedupGo, hg] at h
      obtain ⟨p, hp, hrest⟩ := ih seen r h
      exact ⟨p, by simp [hp], hrest⟩
    · by_cases hcond : c ≠ "" ∧ c ∉ seen
      · simp only [dedupGo, hg, if_pos hcond] at h
        rcases List.mem_cons.mp h with h1 | h1
        · exact ⟨place, by simp, c, hg, hcond.1, h1⟩
        · obtain ⟨p, hp, hrest⟩ := ih (c :: seen) r h1
          exact ⟨p, by simp [hp], hrest⟩
      · simp only [dedupGo, hg, if_neg hcond] at h
        obtain ⟨p, hp, hrest⟩ := ih seen r h
        exact ⟨p, by simp [hp], hrest⟩

theorem seenAfter_append (xs : List String) : ∀ (ys : List String) (seen : List String),
    seenAfter seen (xs ++ ys) = seenAfter (seenAfter seen xs) ys := by
  induction xs with
  | nil => intro ys seen; rfl
  | cons c xs ih =>
    intro ys seen
    by_cases hs : c ∈ seen
    · simp [seenAfter, hs, ih]
    · simp [seenAfter, hs, ih]

theorem firstDedupFrom_append (xs : List String) : ∀ (ys : List String) (seen : List String),
    firstDedupFrom seen (xs ++ ys)
      = firstDedupFrom seen xs ++ firstDedupFrom (seenAfter seen xs) ys := by
  induction xs with
  | nil => intro ys seen; rfl
  | cons c xs ih =>
    intro ys seen
    by_cases hs : c ∈ seen
    · simp [firstDedupFrom, seenAfter, hs, ih]
    · simp [firstDedupFrom, seenAfter, hs, ih]

theorem firstDedupFrom_spec (l : List String) : ∀ seen,
    (firstDedupFrom seen l).Nodup ∧ ∀ c ∈ firstDedupFrom seen l, c ∉ seen := by
  induction l with
  | nil => intro seen; simp [firstDedupFrom]
  | cons c cs ih =>
    intro seen
    by_cases hs : c ∈ seen
    · simpa [firstDedupFrom, hs] using ih seen
    · obtain ⟨h1, h2⟩ := ih (c :: seen)
      refine ⟨?_, ?_⟩
      · simp only [firstDedupFrom, if_neg hs, List.nodup_cons]
        exact ⟨fun hmem => (h2 c hmem) (by simp), h1⟩
      · intro d hd
        simp only [firstDedupFrom, if_neg hs, List.mem_cons] at hd
        rcases hd with rfl | hd
        · exact hs
        · exact fun hds => (h2 d hd) (by simp [hds])

theorem processBatch_seen (st : WriterState) (b : List Dict) :
    (processBatch st b).seen = seenAfter st.seen (neCids b) := by
  simp [processBatch, dedupGo_seen]

theorem processBatch_out (st : WriterState) (b : List Dict) :
    (processBatch st b).outRecords = st.outRecords ++ (dedupGo st.seen b).2 := rfl

theorem runGo (batches : List (List Dict)) : ∀ st : WriterState,
    ((batches.foldl processBatch st).outRecords.map cidOf
      = st.outRecords.map cidOf
        ++ (firstDedupFrom st.seen (neCids batches.flatten)).map
            (fun c => some (quoteToken c))) ∧
    (batches.foldl processBatch st).seen = seenAfter st.seen (neCids batches.flatten) := by
  induction batches with
  | nil => intro st; simp [firstDedupFrom, seenAfter, neCids]
  | cons b rest ih =>
    intro st
    obtain ⟨ih1, ih2⟩ := ih (processBatch st b)
    have hflat : neCids ((b :: rest).flatten) = neCids b ++ neCids rest.flatten := by
      simp [neCids, List.flatten_cons, List.filterMap_append]
    constructor
    · rw [List.foldl_cons, ih1, processBatch_out, processBatch_seen, List.map_append,
        dedupGo_cids, hflat, firstDedupFrom_append, List.map_append, List.append_assoc]
    · rw [List.foldl_cons, ih2, processBatch_seen, hflat, seenAfter_append]

theorem quoteToken_injective : Function.Injective quoteToken := by
  intro a b h
  have h2 : quoteChar :: a.data = quoteChar :: b.data := congrArg String.data h
  have h3 : a.data = b.data := by injection h2
  cases a
  cases b
  exact congrArg String.mk h3

/-- Claim C1: across the whole run, the written `cid` cells are exactly
the quote-protected first occurrences of the distinct non-empty raw `cid`s
of the completion-order record stream (first-write-wins), and hence no
`cid` value is written twice. -/
theorem C1_dedup_first_write_wins (batches : List (List Dict)) :
    (runBatches batches).outRecords.map cidOf
      = (firstDedupFrom [] (neCids batches.flatten)).map (fun c => some (quoteToken c)) ∧
    ((runBatches batches).outRecords.map cidOf).Nodup := by
  obtain ⟨h1, _⟩ := runGo batches initState
  have h1' : (runBatches batches).outRecords.map cidOf
      = (firstDedupFrom [] (neCids batches.flatten)).map (fun c => some (quoteToken c)) := by
    simpa [runBatches, initState] using h1
  refine ⟨h1', ?_⟩
  rw [h1']
  have hinj : Function.Injective (fun c => some (quoteToken c)) :=
    fun a b h => quoteToken_injective (Option.some.inj h)
  exact ((firstDedupFrom_spec (neCids batches.flatten) []).1).map hinj

/-! ## Record provenance -/

theorem runBatches_mem (batches : List (List Dict)) : ∀ (st : WriterState) (r : Dict),
    r ∈ (batches.foldl processBatch st).outRecords →
    r ∈ st.outRecords ∨ ∃ p, p ∈ batches.flatten ∧ ∃ c,
      Dict.get? p "cid" = some c ∧ c ≠ "" ∧ r = acceptPlace c p := by
  induction batches with
  | nil => intro st r h; exact Or.inl h
  | cons b rest ih =>
    intro st r h
    rcases ih (processBatch st b) r h with h1 | ⟨p, hp, hrest⟩
    · rw [processBatch_out] at h1
      rcases List.mem_append.mp h1 with h2 | h2
      · exact Or.inl h2
      · obtain ⟨p, hp, hrest⟩ := dedupGo_mem b st.seen r h2
        refine Or.inr ⟨p, ?_, hrest⟩
        rw [List.flatten_cons]
        exact List.mem_append_left _ hp
    · refine Or.inr ⟨p, ?_, hrest⟩
      rw [List.flatten_cons]
      exact List.mem_append_right _ hp

theorem fetchGo_collected_mem (row : QueryRow) (st : String) :
    ∀ (outcomes : List PostOutcome) (page : Nat) (col : List Dict) (pr : List Nat)
      (calls att : Nat) (p : Dict),
    p ∈ (fetchGo row st outcomes page col pr calls att).collected →
    p ∈ col ∨ ∃ pg pl, p = mkEntry row st pg pl := by
  intro outcomes
  induction outcomes with
  | nil => intro page col pr calls att p h; exact Or.inl h
  | cons o rest ih =>
    intro page col pr calls att p h
    cases o with
    | raised a => exact Or.inl h
    | returned r =>
      by_cases hst : 400 ≤ r.status
      · rw [show fetchGo row st (PostOutcome.returned r :: rest) page col pr calls att
            = ⟨col, pr ++ [page], calls + 1, att + r.attempts⟩ by
          simp [fetchGo, if_pos hst]] at h
        exact Or.inl h
      · rcases hp : r.places? with _ | ps
        · rw [show fetchGo row st (PostOutcome.returned r :: rest) page col pr calls att
              = ⟨col, pr ++ [page], calls + 1, att + r.attempts⟩ by
            simp [fetchGo, if_neg hst, hp]] at h
          exact Or.inl h
        · cases ps with
          | nil =>
            rw [show fetchGo row st (PostOutcome.returned r :: rest) page col pr calls att
                = ⟨col, pr ++ [page], calls + 1, att + r.attempts⟩ by
              simp [fetchGo, if_neg hst, hp]] at h
            exact Or.inl h
          | cons q qs =>
            rw [show fetchGo row st (PostOutcome.returned r :: rest) page col pr calls att
                = fetchGo row st rest (page + 1)
                    (col ++ (q :: qs).map (mkEntry row st page)) (pr ++ [page])
                    (calls + 1) (att + r.attempts) by
              simp [fetchGo, if_neg hst, hp]] at h
            rcases ih (page + 1) _ _ _ _ p h with h1 | h1
            · rcases List.mem_append.mp h1 with h2 | h2
              · exact Or.inl h2
              · obtain ⟨pl, _, rfl⟩ := List.mem_map.mp h2
                exact Or.inr ⟨page, pl, rfl⟩
            · exact Or.inr h1

/-! ## Key-presence lemmas -/

theorem foldl_set_hasKey (l : List (String × String)) : ∀ (d : Dict) (k : String),
    Dict.hasKey d k = true →
    Dict.hasKey (l.foldl (fun e kv => Dict.set e kv.1 (normalize_text kv.2)) d) k = true := by
  induction l with
  | nil => intro d k h; exact h
  | cons kv tl ih =>
    intro d k h
    exact ih _ k (Dict.hasKey_set_mono d kv.1 _ k h)

theorem mkEntry_hasKey_stamp (row : QueryRow) (st : String) (page : Nat) (pl : Dict)
    (k : String) (hk : k ∈ ["query", "city", "zip", "search_term", "page"]) :
    Dict.hasKey (mkEntry row st page pl) k = true := by
  have hbase : Dict.hasKey
      ([("query", normalize_text row.query), ("city", normalize_text row.city),
        ("zip", pyStrip row.zip), ("search_term", st), ("page", toString page)] : Dict)
      k = true := by
    rcases (by simpa using hk : k = "query" ∨ k = "city" ∨ k = "zip" ∨
        k = "search_term" ∨ k = "page") with rfl | rfl | rfl | rfl | rfl <;>
      simp [Dict.hasKey, Dict.get?]
  exact foldl_set_hasKey pl _ k hbase

theorem acceptPlace_hasKey_mono (c : String) (p : Dict) (k : String)
    (h : Dict.hasKey p k = true) : Dict.hasKey (acceptPlace c p) k = true :=
  Dict.hasKey_set_mono _ _ _ _ (Dict.hasKey_set_mono _ _ _ _ (Dict.hasKey_set_mono _ _ _ _ h))

theorem acceptPlace_hasKey_added (c : String) (p : Dict) :
    Dict.hasKey (acceptPlace c p) "is_valid" = true ∧
    Dict.hasKey (acceptPlace c p) "maps_url" = true ∧
    Dict.hasKey (acceptPlace c p) "cid" = true := by
  refine ⟨?_, ?_, ?_⟩
  · exact Dict.hasKey_set_mono _ _ _ _
      (Dict.hasKey_set_mono _ _ _ _ (Dict.hasKey_set_self _ _ _))
  · exact Dict.hasKey_set_mono _ _ _ _ (Dict.hasKey_set_self _ _ _)
  · exact Dict.hasKey_set_self _ _ _

/-- Claim C8: every record written by the run — with its batches produced
by fetch tasks — carries a value slot for every fixed-prefix column, even
when the place objects of the API response themselves contain fields named `query`,
`city`, `zip`, `search_term`, or `page` (they then overwrite the stamped
value, but the slot remains present). -/
theorem C8_fixed_columns_present (tasks : List (QueryRow × List PostOutcome)) (r : Dict)
    (h : r ∈ (runBatches
        (tasks.map (fun t => (fetch_places t.1 t.2).collected))).outRecords)
    (k : String) (hk : k ∈ fixedCols) :
    Dict.hasKey r k = true := by
  rcases runBatches_mem _ initState r h with h1 | ⟨p, hp, c, hc1, hc2, hr⟩
  · simp [initState] at h1
  · subst hr
    obtain ⟨batch, hbatch, hpb⟩ := List.mem_flatten.mp hp
    obtain ⟨t, ht, rfl⟩ := List.mem_map.mp hbatch
    rcases fetchGo_collected_mem t.1 (searchTermOf t.1) t.2 1 [] [] 0 0 p
        (by simpa [fetch_places] using hpb) with h2 | ⟨pg, pl, rfl⟩
    · simp at h2
    · rcases (by simpa [fixedCols] using hk : k = "query" ∨ k = "city" ∨ k = "zip" ∨
          k = "search_term" ∨ k = "page" ∨ k = "is_valid" ∨ k = "maps_url") with
        rfl | rfl | rfl | rfl | rfl | rfl | rfl
      · exact acceptPlace_hasKey_mono _ _ _ (mkEntry_hasKey_stamp _ _ _ _ _ (by simp))
      · exact acceptPlace_hasKey_mono _ _ _ (mkEntry_hasKey_stamp _ _ _ _ _ (by simp))
      · exact acceptPlace_hasKey_mono _ _ _ (mkEntry_hasKey_stamp _ _ _ _ _ (by simp))
      · exact acceptPlace_hasKey_mono _ _ _ (mkEntry_hasKey_stamp _ _ _ _ _ (by simp))
      · exact acceptPlace_hasKey_mono _ _ _ (mkEntry_hasKey_stamp _ _ _ _ _ (by simp))
      · exact (acceptPlace_hasKey_added _ _).1
      · exact (acceptPlace_hasKey_added _ _).2.1

/-- Claim C9: every written record comes from a stream record with a
non-empty raw `cid`; its written `maps_url` is the fixed template applied
to the raw unprefixed `cid`, and its written `cid` cell is the
quote-protected token. -/
theorem C9_cid_serialization (batches : List (List Dict)) (r : Dict)
    (h : r ∈ (runBatches batches).outRecords) :
    ∃ p c, p ∈ batches.flatten ∧ Dict.get? p "cid" = some c ∧ c ≠ "" ∧
      r = acceptPlace c p ∧
      Dict.get? r "maps_url" = some (mapsUrl c) ∧
      Dict.get? r "cid" = some (quoteToken c) := by
  rcases runBatches_mem batches initState r h with h1 | ⟨p, hp, c, hc1, hc2, hr⟩
  · simp [initState] at h1
  · refine ⟨p, c, hp, hc1, hc2, hr, ?_, ?_⟩
    · subst hr
      show Dict.get? (Dict.set _ "cid" (quoteToken c)) "maps_url" = some (mapsUrl c)
      rw [Dict.get?_set_ne _ "cid" _ "maps_url" (by decide), Dict.get?_set_self]
    · subst hr
      exact Dict.get?_set_self _ _ _

/-- Witness for C8 on a concrete one-row, one-page run. -/
theorem C8_fixed_columns_present_witness :
    Dict.hasKey (acceptPlace "5" (mkEntry rowW (searchTermOf rowW) 1 plW1)) "page" = true :=
  C8_fixed_columns_present [(rowW, [PostOutcome.returned ⟨1, 200, some [plW1]⟩])]
    (acceptPlace "5" (mkEntry rowW (searchTermOf rowW) 1 plW1)) (by decide) "page" (by decide)

/-- Witness for C9 on a concrete singleton batch. -/
theorem C9_cid_serialization_witness :
    Dict.get? (acceptPlace "5" plW1) "maps_url" = some (mapsUrl "5") ∧
    Dict.get? (acceptPlace "5" plW1) "cid" = some (quoteToken "5") := by
  obtain ⟨p, c, hp, hc1, hc2, hr, hm, hq⟩ :=
    C9_cid_serialization [[plW1]] (acceptPlace "5" plW1) (by decide)
  have hpl : p = plW1 := by simpa using hp
  subst hpl
  have hc : c = "5" := by
    have h5 : Dict.get? plW1 "cid" = some "5" := by decide
    rw [h5] at hc1
    exact (Option.some.inj hc1).symm
  subst hc
  exact ⟨hm, hq⟩

/-! ## Ordering lemmas for `sorted` -/

theorem charListLe_total : ∀ (a b : List Char),
    charListLe a b = true ∨ charListLe b a = true := by
  intro a
  induction a with
  | nil => intro b; exact Or.inl rfl
  | cons x xs ih =>
    intro b
    cases b with
    | nil => exact Or.inr rfl
    | cons y ys =>
      by_cases h1 : x.toNat < y.toNat
      · exact Or.inl (by simp [charListLe, h1])
      · by_cases h2 : y.toNat < x.toNat
        · exact Or.inr (by simp [charListLe, h2])
        · rcases ih ys with h | h
          · exact Or.inl (by simp [charListLe, h1, h2, h])
          · exact Or.inr (by simp [charListLe, h1, h2, h])

theorem charListLe_trans : ∀ (a b c : List Char),
    charListLe a b = true → charListLe b c = true → charListLe a c = true := by
  intro a
  induction a with
  | nil => intro b c h1 h2; rfl
  | cons x xs ih =>
    intro b c h1 h2
    cases b with
    | nil => simp [charListLe] at h1
    | cons y ys =>
      cases c with
      | nil => simp [charListLe] at h2
      | cons z zs =>
        by_cases hxy : x.toNat < y.toNat
        · by_cases hyz : y.toNat < z.toNat
          · simp [charListLe, Nat.lt_trans hxy hyz]
          · by_cases hzy : z.toNat < y.toNat
            · simp [charListLe, hyz, hzy] at h2
            · have hxz : x.toNat < z.toNat := by omega
              simp [charListLe, hxz]
        · by_cases hyx : y.toNat < x.toNat
          · simp [charListLe, hxy, hyx] at h1
          · by_cases hyz : y.toNat < z.toNat
            · have hxz : x.toNat < z.toNat := by omega
              simp [charListLe, hxz]
            · by_cases hzy : z.toNat < y.toNat
              · simp [charListLe, hyz, hzy] at h2
              · have hxz : ¬x.toNat < z.toNat := by omega
                have hzx : ¬z.toNat < x.toNat := by omega
                simp only [charListLe, if_neg hxy, if_neg hyx] at h1
                simp only [charListLe, if_neg hyz, if_neg hzy] at h2
                simp only [charListLe, if_neg hxz, if_neg hzx]
                exact ih ys zs h1 h2

instance : IsTotal String strLeP :=
  ⟨fun a b => charListLe_total a.data b.data⟩

instance : IsTrans String strLeP :=
  ⟨fun a b c h1 h2 => charListLe_trans a.data b.data c.data h1 h2⟩

theorem sortStrings_sorted (l : List String) : List.Sorted strLeP (sortStrings l) :=
  List.sorted_insertionSort strLeP l

theorem sortStrings_perm (l : List String) : (sortStrings l).Perm l :=
  List.perm_insertionSort strLeP l

/-! ## Key-set lemmas -/

theorem mem_keysInsert (ks : List String) (k x : String) :
    x ∈ keysInsert ks k ↔ x ∈ ks ∨ x = k := by
  unfold keysInsert
  by_cases h : k ∈ ks
  · simp only [if_pos h]
    constructor
    · exact Or.inl
    · rintro (hx | rfl)
      · exact hx
      · exact h
  · simp [if_neg h]

theorem mem_keysUnion (l : List String) : ∀ (ks : List String) (x : String),
    x ∈ keysUnion ks l ↔ x ∈ ks ∨ x ∈ l := by
  induction l with
  | nil => intro ks x; simp [keysUnion]
  | cons c cs ih =>
    intro ks x
    show x ∈ keysUnion (keysInsert ks c) cs ↔ _
    rw [ih, mem_keysInsert]
    simp [List.mem_cons, or_assoc, or_comm, or_left_comm]

theorem keysInsert_nodup (ks : List String) (k : String) (h : ks.Nodup) :
    (keysInsert ks k).Nodup := by
  unfold keysInsert
  by_cases hk : k ∈ ks
  · simpa [if_pos hk] using h
  · rw [if_neg hk, List.nodup_append]
    refine ⟨h, by simp, ?_⟩
    intro a ha hak
    simp at hak
    subst hak
    exact hk ha

theorem keysUnion_nodup (l : List String) : ∀ ks, ks.Nodup → (keysUnion ks l).Nodup := by
  induction l with
  | nil => intro ks h; exact h
  | cons c cs ih => intro ks h; exact ih _ (keysInsert_nodup ks c h)

/-! ## Header lemmas -/

theorem mem_mkHeaders (ks : List String) (x : String) :
    x ∈ mkHeaders ks ↔ x ∈ fixedCols ∨ (x ∈ ks ∧ ¬x ∈ fixedCols) := by
  unfold mkHeaders
  rw [List.mem_append, (sortStrings_perm _).mem_iff, List.mem_filter]
  simp

theorem mkHeaders_nodup (ks : List String) (h : ks.Nodup) : (mkHeaders ks).Nodup := by
  unfold mkHeaders
  rw [List.nodup_append]
  refine ⟨by decide, ((sortStrings_perm _).nodup_iff).mpr (h.filter _), ?_⟩
  intro a ha hb
  have h2 := ((sortStrings_perm _).mem_iff).mp hb
  have h3 := (List.mem_filter.mp h2).2
  simp at h3
  exact h3 ha

theorem processBatch_headers_some (st : WriterState) (b : List Dict) (hh : List String)
    (h : st.headers? = some hh) : (processBatch st b).headers? = some hh := by
  by_cases hE : ((dedupGo st.seen b).2).isEmpty
  · simpa [processBatch, hE] using h
  · simp [processBatch, hE, h]

theorem foldl_headers_some (batches : List (List Dict)) : ∀ (st : WriterState)
    (hh : List String), st.headers? = some hh →
    (batches.foldl processBatch st).headers? = some hh := by
  induction batches with
  | nil => intro st hh h; exact h
  | cons b rest ih => intro st hh h; exact ih _ hh (processBatch_headers_some st b hh h)

theorem processBatch_headers_none (st : WriterState) (b : List Dict)
    (h : (processBatch st b).headers? = none) :
    st.headers? = none ∧ (processBatch st b).allKeys = st.allKeys := by
  by_cases hE : ((dedupGo st.seen b).2).isEmpty
  · have hnil : (dedupGo st.seen b).2 = [] := List.isEmpty_iff.mp hE
    constructor
    · simpa [processBatch, hE] using h
    · show keysUnion st.allKeys ((dedupGo st.seen b).2.flatMap Dict.keys) = st.allKeys
      rw [hnil]
      rfl
  · exfalso
    simp [processBatch, hE] at h

theorem foldl_headers_none (batches : List (List Dict)) : ∀ st : WriterState,
    (batches.foldl processBatch st).headers? = none →
    (batches.foldl processBatch st).allKeys = st.allKeys ∧ st.headers? = none := by
  induction batches with
  | nil => intro st h; exact ⟨rfl, h⟩
  | cons b rest ih =>
    intro st h
    obtain ⟨h1, h2⟩ := ih (processBatch st b) h
    obtain ⟨h3, h4⟩ := processBatch_headers_none st b h2
    exact ⟨h1.trans h4, h3⟩

theorem processBatch_headers_first (st : WriterState) (b : List Dict)
    (hn : st.headers? = none) (hne2 : (dedupGo st.seen b).2 ≠ []) :
    (processBatch st b).headers?
      = some (mkHeaders (keysUnion st.allKeys
          ((dedupGo st.seen b).2.flatMap Dict.keys))) := by
  have hE : ((dedupGo st.seen b).2).isEmpty = false := by
    rcases h : (dedupGo st.seen b).2 with _ | ⟨a, l⟩
    · exact absurd h hne2
    · rfl
  simp [processBatch, hE, hn]

theorem initKeys_not_fixed (x : String) (hx : x ∈ initKeys) (hnx : ¬x ∈ fixedCols) :
    x = "cid" := by
  rcases (by simpa [initKeys] using hx : x = "query" ∨ x = "city" ∨ x = "zip" ∨
      x = "search_term" ∨ x = "page" ∨ x = "cid" ∨ x = "is_valid" ∨ x = "maps_url") with
    rfl | rfl | rfl | rfl | rfl | rfl | rfl | rfl
  · exact absurd (by decide) hnx
  · exact absurd (by decide) hnx
  · exact absurd (by decide) hnx
  · exact absurd (by decide) hnx
  · exact absurd (by decide) hnx
  · rfl
  · exact absurd (by decide) hnx
  · exact absurd (by decide) hnx

theorem rowCells_blank (hdr : List String) (rec : Dict) (k : String)
    (hk : k ∈ hdr) (hg : Dict.get? rec k = none) :
    (rowCells hdr rec)[List.indexOf k hdr]? = some "" := by
  have hlt : List.indexOf k hdr < hdr.length := List.indexOf_lt_length.mpr hk
  rw [rowCells, List.getElem?_map, List.getElem?_eq_getElem hlt]
  simp [List.getElem_indexOf hlt, Dict.getD, hg]

theorem rowCells_ignores (hdr : List String) (rec : Dict) (k v : String)
    (hk : ¬k ∈ hdr) : rowCells hdr (Dict.set rec k v) = rowCells hdr rec := by
  unfold rowCells
  apply List.map_congr_left
  intro c hc
  have hck : c ≠ k := fun h => hk (h ▸ hc)
  simp [Dict.getD, Dict.get?_set_ne rec k v c hck]

/-- Claim C5: the header is frozen at the first batch with accepted
records as the fixed prefix followed by exactly the other field names
observed across the accepted records of that batch, in lexicographic order
without repetition; it stays frozen for the rest of the run, later records
missing a schema column are written with a blank cell, and fields outside
the frozen schema are ignored. -/
theorem C5_schema_freeze (pre : List (List Dict)) (b : List Dict) (post : List (List Dict))
    (rows : List Dict) (hdr : List String)
    (hpre : (runBatches pre).headers? = none)
    (hrows : rows = (dedupGo (runBatches pre).seen b).2)
    (hne : rows ≠ [])
    (hhdr : hdr = mkHeaders (keysUnion initKeys (rows.flatMap Dict.keys))) :
    (runBatches (pre ++ b :: post)).headers? = some hdr ∧
    hdr.take 7 = fixedCols ∧
    List.Sorted strLeP (hdr.drop 7) ∧
    hdr.Nodup ∧
    (∀ x, x ∈ hdr ↔ (x ∈ fixedCols ∨ ∃ r ∈ rows, x ∈ Dict.keys r)) ∧
    (∀ (rec : Dict) (k : String), k ∈ hdr → Dict.get? rec k = none →
      (rowCells hdr rec)[List.indexOf k hdr]? = some "") ∧
    (∀ (rec : Dict) (k v : String), ¬k ∈ hdr →
      rowCells hdr (Dict.set rec k v) = rowCells hdr rec) := by
  have hAK : (runBatches pre).allKeys = initKeys :=
    (foldl_headers_none pre initState hpre).1
  refine ⟨?_, ?_, ?_, ?_, ?_, ?_, ?_⟩
  · show ((pre ++ b :: post).foldl processBatch initState).headers? = some hdr
    rw [List.foldl_append, List.foldl_cons]
    apply foldl_headers_some
    show (processBatch (runBatches pre) b).headers? = some hdr
    rw [processBatch_headers_first (runBatches pre) b hpre (by rw [← hrows]; exact hne)]
    rw [hAK, ← hrows, hhdr]
  · rw [hhdr]
    exact List.take_left fixedCols _
  · rw [hhdr]
    have hdrop : (mkHeaders (keysUnion initKeys (rows.flatMap Dict.keys))).drop 7
        = sortStrings ((keysUnion initKeys (rows.flatMap Dict.keys)).filter
            (fun k => !(decide (k ∈ fixedCols)))) :=
      List.drop_left fixedCols _
    rw [hdrop]
    exact sortStrings_sorted _
  · rw [hhdr]
    exact mkHeaders_nodup _ (keysUnion_nodup _ initKeys (by decide))
  · intro x
    rw [hhdr, mem_mkHeaders, mem_keysUnion]
    constructor
    · rintro (hf | ⟨hku | hfm, hnf⟩)
      · exact Or.inl hf
      · have hx : x = "cid" := initKeys_not_fixed x hku hnf
        subst hx
        obtain ⟨r0, hr0⟩ := List.exists_mem_of_ne_nil rows hne
        have hr0d : r0 ∈ (dedupGo (runBatches pre).seen b).2 := by rw [← hrows]; exact hr0
        obtain ⟨p, _, c, _, _, rfl⟩ := dedupGo_mem b (runBatches pre).seen r0 hr0d
        refine Or.inr ⟨acceptPlace c p, hr0, ?_⟩
        exact Dict.mem_keys_of_get? _ _ _ (cidOf_acceptPlace c p)
      · obtain ⟨r, hr, hxr⟩ := List.mem_flatMap.mp hfm
        exact Or.inr ⟨r, hr, hxr⟩
    · rintro (hf | ⟨r, hr, hxr⟩)
      · exact Or.inl hf
      · by_cases hfx : x ∈ fixedCols
        · exact Or.inl hfx
        · exact Or.inr ⟨Or.inr (List.mem_flatMap.mpr ⟨r, hr, hxr⟩), hfx⟩
  · intro rec k hk hg
    exact rowCells_blank hdr rec k hk hg
  · intro rec k v hk
    exact rowCells_ignores hdr rec k v hk

def e1f : Dict := [("cid", "1"), ("a", "x"), ("b", "y")]

def e2f : Dict := [("cid", "2"), ("a", "x"), ("c", "z")]

def rowsF : List Dict := (dedupGo [] [e1f, e2f]).2

def hdrF : List String := mkHeaders (keysUnion initKeys (rowsF.flatMap Dict.keys))

/-- Witness for C5 on a first batch whose records carry field sets a,b and
a,c: the frozen schema contains both `b` and `c`, and the `b` cell of the
second record is written blank. -/
theorem C5_schema_freeze_witness :
    (runBatches ([] ++ [e1f, e2f] :: [])).headers? = some hdrF ∧
    "b" ∈ hdrF ∧ "c" ∈ hdrF ∧
    (rowCells hdrF (acceptPlace "2" e2f))[List.indexOf "b" hdrF]? = some "" := by
  obtain ⟨h1, h2, h3, h4, h5, h6, h7⟩ :=
    C5_schema_freeze [] [e1f, e2f] [] rowsF hdrF rfl rfl (by decide) rfl
  have hb : "b" ∈ hdrF :=
    (h5 "b").mpr (Or.inr ⟨acceptPlace "1" e1f, by decide, by decide⟩)
  have hc : "c" ∈ hdrF :=
    (h5 "c").mpr (Or.inr ⟨acceptPlace "2" e2f, by decide, by decide⟩)
  exact ⟨h1, hb, hc, h6 (acceptPlace "2" e2f) "b" hb (by decide)⟩

end Scraper
